import Mathlib

/-!
Shallow embedding of the heap-file storage layer:
`src/CS660-Fall2025-pa-main/src/db/Tuple.cpp`,
`src/CS660-Fall2025-pa-main/src/db/HeapFile.cpp`,
and the header `src/include/db/Tuple.hpp`.

Machine integers are modelled as `Int`/`Nat` with explicit reductions
modulo `2 ^ 32` / `2 ^ 64` where the code copies raw bytes; byte buffers
are `List Nat` (each entry one byte); fallible operations return
`Except DbError`.
-/

namespace Db

/-- Field type tags, mirroring `db::type_t` with constants INT, DOUBLE, CHAR. -/
inductive type_t where
  | INT
  | DOUBLE
  | CHAR
deriving DecidableEq, Repr

/-- Modelled from the spec: `db/types.hpp` is not under `src/`; the spec fixes
int = 4 bytes, double = 8 bytes, text = 64 bytes. -/
def INT_SIZE : Nat := 4

/-- Modelled from the spec: width of a DOUBLE field (8 bytes). -/
def DOUBLE_SIZE : Nat := 8

/-- Modelled from the spec: fixed capacity of a CHAR text field (64 bytes). -/
def CHAR_SIZE : Nat := 64

/-- Modelled from the spec: the fixed page size of the external page store
(`db/types.hpp` is not under `src/`; the spec names 4096 bytes). -/
def DEFAULT_PAGE_SIZE : Nat := 4096

/-- A field value, mirroring `db::field_t = std::variant<int, double, std::string>`.
A C++ `int` is a 32-bit signed integer, kept as `Int`; a `double` is only ever
copied bytewise by this code, so it is kept as its raw 64-bit pattern; a
`std::string` is a byte sequence, kept as `List Nat`. -/
inductive field_t where
  | intF (v : Int)
  | doubleF (bits : Nat)
  | charF (s : List Nat)
deriving DecidableEq, Repr

/-- Tag of a field value, mirroring `Tuple::field_type`. -/
def field_type : field_t → type_t
  | .intF _ => .INT
  | .doubleF _ => .DOUBLE
  | .charF _ => .CHAR

/-- Mirrors `db::Tuple`: an ordered list of field values. -/
structure Tuple where
  fields : List field_t
deriving DecidableEq, Repr

/-- Mirrors `Tuple::size`. -/
def Tuple.size (t : Tuple) : Nat := t.fields.length

/-- Value-level well-formedness capturing the C++ value types: an `int` lies in
the 32-bit signed range, a `double` pattern fits in 64 bits, and every byte of a
`std::string` is below 256. This is a property of the C++ types themselves, not
an extra restriction. -/
def field_wf : field_t → Bool
  | .intF v => decide (-(2 ^ 31 : Int) ≤ v) && decide (v < 2 ^ 31)
  | .doubleF bits => decide (bits < 2 ^ 64)
  | .charF s => s.all (fun b => decide (b < 256))

/-- A tuple is well formed when each field value is. -/
def Tuple.wf (t : Tuple) : Bool := t.fields.all field_wf

/-- Error kinds raised by the code (`std::logic_error`, `std::out_of_range`,
`std::bad_variant_access`, and the page-level invalid-slot rejection). -/
inductive DbError where
  | outOfRange
  | invalidSlot
  | incompatible
  | schemaError
  | variantAccess
deriving DecidableEq, Repr

/-- Little-endian encoding of `v` into `w` bytes (the raw `std::memcpy` image of
a fixed-width integer on the host). -/
def natToBytes : Nat → Nat → List Nat
  | 0, _ => []
  | w + 1, v => v % 256 :: natToBytes w (v / 256)

/-- Little-endian decoding of a byte list back into a `Nat`. -/
def bytesToNat : List Nat → Nat
  | [] => 0
  | b :: bs => b % 256 + 256 * bytesToNat bs

/-- Raw 4-byte image of a C++ `int` (two's complement, little endian). -/
def intToBytes (v : Int) : List Nat :=
  natToBytes INT_SIZE (v % (2 ^ 32 : Int)).toNat

/-- Decoding 4 bytes back into a C++ `int` value. -/
def bytesToInt (bs : List Nat) : Int :=
  let u := bytesToNat bs
  if u < 2 ^ 31 then (u : Int) else (u : Int) - 2 ^ 32

/-- Mirrors the CHAR branch of `TupleDesc::serialize`: copy at most
`CHAR_SIZE` bytes of the string, zero-padding up to `CHAR_SIZE`. -/
def charToBytes (s : List Nat) : List Nat :=
  s.take CHAR_SIZE ++ List.replicate (CHAR_SIZE - s.length) 0

/-- Mirrors the CHAR branch of `TupleDesc::deserialize`: scan at most
`CHAR_SIZE` bytes, stopping at the first zero byte. -/
def bytesToChar (bs : List Nat) : List Nat :=
  (bs.take CHAR_SIZE).takeWhile (fun b => b ≠ 0)

/-- Mirrors `db::TupleDesc`: the constructor-computed members (the `name2idx_`
map is omitted; no verified claim uses `index_of`). -/
structure TupleDesc where
  types_ : List type_t
  names_ : List String
  offsets_ : List Nat
  length_ : Nat
deriving DecidableEq, Repr

/-- Byte width of one field type, mirroring the `size_of` lambda inside the
`TupleDesc` constructor. -/
def size_of : type_t → Nat
  | .INT => INT_SIZE
  | .DOUBLE => DOUBLE_SIZE
  | .CHAR => CHAR_SIZE

/-- The offset-accumulating loop of the `TupleDesc` constructor: returns the
per-field offsets and the final accumulated length, starting from `off`. -/
def buildOffsets : List type_t → Nat → List Nat × Nat
  | [], off => ([], off)
  | ty :: rest, off =>
    let r := buildOffsets rest (off + size_of ty)
    (off :: r.1, r.2)

/-- Mirrors the `TupleDesc(types, names)` constructor: rejects mismatched
lengths and duplicate names with `std::logic_error`, otherwise freezes the
offsets and total length. -/
def TupleDesc.make (types : List type_t) (names : List String) :
    Except DbError TupleDesc :=
  if types.length ≠ names.length then .error .schemaError
  else if ¬ names.Nodup then .error .schemaError
  else
    let r := buildOffsets types 0
    .ok ⟨types, names, r.1, r.2⟩

/-- Mirrors `TupleDesc::compatible`: same field count and positionally
matching tags; a pure Boolean check that never throws. -/
def TupleDesc.compatible (td : TupleDesc) (t : Tuple) : Bool :=
  t.size == td.types_.length &&
    (td.types_.zip t.fields).all fun p => field_type p.2 == p.1

/-- Mirrors `TupleDesc::offset_of`, throwing `std::out_of_range` past the end. -/
def TupleDesc.offset_of (td : TupleDesc) (index : Nat) : Except DbError Nat :=
  if h : index < td.offsets_.length then .ok (td.offsets_.get ⟨index, h⟩)
  else .error .outOfRange

/-- Mirrors `TupleDesc::length`. -/
def TupleDesc.length (td : TupleDesc) : Nat := td.length_

/-- Mirrors `TupleDesc::size`. -/
def TupleDesc.size (td : TupleDesc) : Nat := td.types_.length

/-- Overwrite `bytes` into `buf` starting at byte offset `off` (the effect of
one fixed-width `std::memcpy` into the output buffer). -/
def writeAt (buf : List Nat) (off : Nat) (bytes : List Nat) : List Nat :=
  buf.take off ++ bytes ++ buf.drop (off + bytes.length)

/-- One iteration of the `TupleDesc::serialize` loop body: the raw bytes of a
field under its declared type; `std::get` on a mismatched alternative throws
`std::bad_variant_access`, which the `compatible` pre-check makes unreachable. -/
def serializeField : type_t → field_t → Except DbError (List Nat)
  | .INT, .intF v => .ok (intToBytes v)
  | .DOUBLE, .doubleF bits => .ok (natToBytes DOUBLE_SIZE bits)
  | .CHAR, .charF s => .ok (charToBytes s)
  | _, _ => .error .variantAccess

/-- The `TupleDesc::serialize` loop over (type, offset, field) triples, each
writing its fixed-width encoding at its fixed offset. -/
def serializeLoop : List (type_t × Nat × field_t) → List Nat →
    Except DbError (List Nat)
  | [], buf => .ok buf
  | (ty, off, f) :: rest, buf =>
    match serializeField ty f with
    | .error e => .error e
    | .ok bs => serializeLoop rest (writeAt buf off bs)

/-- Mirrors `TupleDesc::serialize(data, t)`: reject the whole record if
incompatible (before writing any byte), else write each field at its offset. -/
def TupleDesc.serialize (td : TupleDesc) (data : List Nat) (t : Tuple) :
    Except DbError (List Nat) :=
  if ¬ td.compatible t then .error .incompatible
  else serializeLoop (td.types_.zip (td.offsets_.zip t.fields)) data

/-- One iteration of the `TupleDesc::deserialize` loop body: decode the
fixed-width slice that starts at the field's offset. -/
def deserializeField : type_t → List Nat → field_t
  | .INT, bs => .intF (bytesToInt (bs.take INT_SIZE))
  | .DOUBLE, bs => .doubleF (bytesToNat (bs.take DOUBLE_SIZE))
  | .CHAR, bs => .charF (bytesToChar bs)

/-- Mirrors `TupleDesc::deserialize(data)`: decode each field from its offset;
total, as in the code (every tag of a frozen schema is known). -/
def TupleDesc.deserialize (td : TupleDesc) (data : List Nat) : Tuple :=
  ⟨(td.types_.zip td.offsets_).map fun p => deserializeField p.1 (data.drop p.2)⟩

/-- Mirrors `TupleDesc::merge`: concatenate the field lists of `td1` then `td2`
and rebuild through the constructor, which re-checks name uniqueness. -/
def TupleDesc.merge (td1 td2 : TupleDesc) : Except DbError TupleDesc :=
  TupleDesc.make (td1.types_ ++ td2.types_) (td1.names_ ++ td2.names_)

/-! ### Slotted page

`HeapPage.cpp` is not under `src/`; the slotted page below is modelled from
the spec (section 4.2): a bounded array of fixed-length record slots with a
per-slot liveness marker, first-free-slot insertion, tombstone deletion and
ascending iteration with sentinel `capacity`. -/

/-- Modelled from the spec: slot capacity of a page is a deterministic,
rounded-down function of page size and record length; the accounting here
charges one liveness byte per slot, an implementation choice the spec leaves
open. -/
def capacity (td : TupleDesc) : Nat :=
  DEFAULT_PAGE_SIZE / (td.length_ + 1)

/-- Modelled from the spec: a page interpreted through a schema is a liveness
marker per slot plus the serialized record bytes of each slot. -/
structure HeapPage where
  live : List Bool
  slots : List (List Nat)
deriving DecidableEq, Repr

/-- Modelled from the spec: a freshly zeroed page has zero live slots and all
slot bytes zero. -/
def emptyPage (td : TupleDesc) : HeapPage :=
  ⟨List.replicate (capacity td) false,
   List.replicate (capacity td) (List.replicate td.length_ 0)⟩

/-- Modelled from the spec: the page's end-of-slots sentinel (== capacity). -/
def HeapPage.pageEnd (hp : HeapPage) : Nat := hp.live.length

/-- Modelled from the spec: the lowest live slot index, or the page sentinel
if no slot is live (`HeapPage::begin`). -/
def HeapPage.begin (hp : HeapPage) : Nat :=
  ((List.range hp.live.length).find? fun i => hp.live.getD i false).getD
    hp.live.length

/-- Modelled from the spec: the next strictly greater live slot index, or the
page sentinel if none remains (`HeapPage::next`). -/
def HeapPage.next (hp : HeapPage) (s : Nat) : Nat :=
  ((List.range hp.live.length).find? fun i =>
      decide (s < i) && hp.live.getD i false).getD hp.live.length

/-- Modelled from the spec: claim the first dead slot, mark it live and
serialize the record into it; `none` when the page is full
(`HeapPage::insertTuple`). -/
def HeapPage.insertTuple (hp : HeapPage) (td : TupleDesc) (t : Tuple) :
    Option HeapPage :=
  match (List.range hp.live.length).find? (fun i => ! hp.live.getD i false) with
  | none => none
  | some i =>
    match td.serialize (hp.slots.getD i (List.replicate td.length_ 0)) t with
    | .error _ => none
    | .ok bs => some ⟨hp.live.set i true, hp.slots.set i bs⟩

/-- Modelled from the spec: reject a slot beyond capacity (out of range) or an
already-dead slot (invalid slot), otherwise mark the slot dead; bytes are not
wiped (`HeapPage::deleteTuple`). -/
def HeapPage.deleteTuple (hp : HeapPage) (slot : Nat) :
    Except DbError HeapPage :=
  if slot ≥ hp.live.length then .error .outOfRange
  else if hp.live.getD slot false = false then .error .invalidSlot
  else .ok ⟨hp.live.set slot false, hp.slots⟩

/-- Modelled from the spec: reject an out-of-range or dead slot, otherwise
deserialize the slot's bytes (`HeapPage::getTuple`). -/
def HeapPage.getTuple (hp : HeapPage) (td : TupleDesc) (slot : Nat) :
    Except DbError Tuple :=
  if slot ≥ hp.live.length then .error .outOfRange
  else if hp.live.getD slot false = false then .error .invalidSlot
  else .ok (td.deserialize (hp.slots.getD slot []))

/-! ### Heap file

Mirrors `HeapFile.cpp`. The external page store (section 6 of the spec) is
modelled as the list of pages: `getNumPages` is its length, `readPage i`
reads entry `i`, and `writePage` at index `n = getNumPages` appends while an
index below `n` overwrites in place. -/

/-- A heap file: its schema and the pages held by the external store. -/
structure HeapFile where
  td : TupleDesc
  pages : List HeapPage
deriving DecidableEq, Repr

/-- Mirrors `DbFile::getNumPages` of the store contract. -/
def HeapFile.getNumPages (f : HeapFile) : Nat := f.pages.length

/-- Mirrors `HeapFile::insertTuple`: reject incompatible records before any
page access; else try the last page and write it back in place on success;
else (empty file or full last page) insert into a fresh zero page — the code
discards that insert's return value — and append it at index `n`. -/
def HeapFile.insertTuple (f : HeapFile) (t : Tuple) : Except DbError HeapFile :=
  if ¬ f.td.compatible t then .error .incompatible
  else
    let n := f.pages.length
    let tryLast : Option HeapPage :=
      if n > 0 then (f.pages.getD (n - 1) (emptyPage f.td)).insertTuple f.td t
      else none
    match tryLast with
    | some hp => .ok ⟨f.td, f.pages.set (n - 1) hp⟩
    | none =>
      let fresh := ((emptyPage f.td).insertTuple f.td t).getD (emptyPage f.td)
      .ok ⟨f.td, f.pages ++ [fresh]⟩

/-- Mirrors `HeapFile::deleteTuple`: out-of-range page index throws; otherwise
read the page, delegate to the page's delete (which may throw), write back. -/
def HeapFile.deleteTuple (f : HeapFile) (it : Nat × Nat) :
    Except DbError HeapFile :=
  if it.1 ≥ f.pages.length then .error .outOfRange
  else
    match (f.pages.getD it.1 (emptyPage f.td)).deleteTuple it.2 with
    | .error e => .error e
    | .ok hp => .ok ⟨f.td, f.pages.set it.1 hp⟩

/-- Mirrors `HeapFile::getTuple`: out-of-range page index throws; otherwise
read the page and delegate to the page's (read-only) lookup. -/
def HeapFile.getTuple (f : HeapFile) (it : Nat × Nat) : Except DbError Tuple :=
  if it.1 ≥ f.pages.length then .error .outOfRange
  else (f.pages.getD it.1 (emptyPage f.td)).getTuple f.td it.2

/-- The page-scanning loop shared by `HeapFile::begin` and the cross-page part
of `HeapFile::next`: the first live locator of pages `p, p+1, ...`, or the
sentinel `(getNumPages, 0)`. -/
def HeapFile.findFrom (f : HeapFile) (p : Nat) : Nat × Nat :=
  if h : p < f.pages.length then
    let hp := f.pages.getD p (emptyPage f.td)
    let b := hp.begin
    if b ≠ hp.pageEnd then (p, b) else f.findFrom (p + 1)
  else (f.pages.length, 0)
termination_by f.pages.length - p

/-- Mirrors `HeapFile::begin`: the first live locator of the file, or `end`. -/
def HeapFile.begin (f : HeapFile) : Nat × Nat := f.findFrom 0

/-- Mirrors `HeapFile::end`: the sentinel locator `(getNumPages, 0)`. -/
def HeapFile.endLoc (f : HeapFile) : Nat × Nat := (f.pages.length, 0)

/-- Mirrors `HeapFile::next`: past-the-end locators normalize to the sentinel;
otherwise advance within the current page, else scan the following pages. -/
def HeapFile.next (f : HeapFile) (it : Nat × Nat) : Nat × Nat :=
  let n := f.pages.length
  if it.1 ≥ n then (n, 0)
  else
    let hp := f.pages.getD it.1 (emptyPage f.td)
    let s := hp.next it.2
    if s ≠ hp.pageEnd then (it.1, s)
    else f.findFrom (it.1 + 1)

/-! ### Derived scan vocabulary

The lists and orders below are statement vocabulary for the scan claims:
the live locators of a file in (page, slot) order, the lexicographic order on
locators, and the iteration trace produced by repeated `next` calls. -/

/-- The live slot indices of a page, in ascending order. -/
def HeapPage.liveSlots (hp : HeapPage) : List Nat :=
  (List.range hp.live.length).filter fun i => hp.live.getD i false

/-- The live locators contributed by page `q`. -/
def HeapFile.pageLocs (f : HeapFile) (q : Nat) : List (Nat × Nat) :=
  ((f.pages.getD q (emptyPage f.td)).liveSlots).map fun s => (q, s)

/-- All live locators of pages `p, p+1, ...` in (page, slot) order. -/
def HeapFile.locsFrom (f : HeapFile) (p : Nat) : List (Nat × Nat) :=
  (List.range' p (f.pages.length - p)).flatMap f.pageLocs

/-- All live locators of the file in (page, slot) lexicographic order. -/
def HeapFile.liveLocs (f : HeapFile) : List (Nat × Nat) := f.locsFrom 0

/-- Strict lexicographic order on locators. -/
def locLt (a b : Nat × Nat) : Bool :=
  decide (a.1 < b.1) || (decide (a.1 = b.1) && decide (a.2 < b.2))

/-- The trace of locators visited by iterating `HeapFile::next` from `it`,
recording each in-range locator until the sentinel is reached (`fuel` bounds
the number of steps). -/
def HeapFile.scanFrom (f : HeapFile) : Nat → Nat × Nat → List (Nat × Nat)
  | 0, _ => []
  | fuel + 1, it =>
    if it.1 < f.pages.length then it :: f.scanFrom fuel (f.next it) else []

/-- The image of a record under one serialize/deserialize round trip: int and
double fields unchanged, every text field cut at its first zero byte after
truncation to `CHAR_SIZE` bytes. -/
def truncField : field_t → field_t
  | .charF s => .charF ((s.take CHAR_SIZE).takeWhile (fun b => b ≠ 0))
  | f => f

/-- `truncField` applied to every field of a record. -/
def truncTuple (t : Tuple) : Tuple := ⟨t.fields.map truncField⟩

deriving instance DecidableEq for Except

/-- Unwrap an `Except` result with a default, for stating concrete examples. -/
def okD {α : Type} (e : Except DbError α) (d : α) : α :=
  match e with
  | .ok a => a
  | .error _ => d

/-- The store contents after an operation: the pages of the new file state on
success, the unchanged pages of `f` when the operation was rejected. -/
def pagesAfter (f : HeapFile) (r : Except DbError HeapFile) : List HeapPage :=
  match r with
  | .ok f2 => f2.pages
  | .error _ => f.pages

/-- The pure byte image of one field under its matching declared type (the
value `serializeField` returns in its non-throwing cases). -/
def encodeField : type_t → field_t → List Nat
  | .INT, .intF v => intToBytes v
  | .DOUBLE, .doubleF bits => natToBytes DOUBLE_SIZE bits
  | .CHAR, .charF s => charToBytes s
  | _, _ => []

/-- The concatenated byte image of a record's fields under a type list. -/
def encodeTuple : List type_t → List field_t → List Nat
  | ty :: tys, f :: fs => encodeField ty f ++ encodeTuple tys fs
  | _, _ => []

/-- Placeholder descriptor used only as the `okD` default of examples. -/
def tdDefault : TupleDesc := ⟨[], [], [], 0⟩

/-- Concrete schema with a single CHAR field. -/
def tdChar : TupleDesc := okD (TupleDesc.make [.CHAR] ["x"]) tdDefault

/-- Concrete schema with a single INT field. -/
def tdInt : TupleDesc := okD (TupleDesc.make [.INT] ["a"]) tdDefault

/-- Concrete schema `[(INT, id), (CHAR, name)]` from the spec's scenario. -/
def tdIC : TupleDesc := okD (TupleDesc.make [.INT, .CHAR] ["id", "name"]) tdDefault

/-- Concrete page with live slots 0 and 2 (slot bytes irrelevant to scans). -/
def pageA : HeapPage := ⟨[true, false, true], [[1], [2], [3]]⟩

/-- Concrete page with no live slot. -/
def pageB : HeapPage := ⟨[false, false], [[], []]⟩

/-- Concrete page whose only live slot is slot 1. -/
def pageC : HeapPage := ⟨[false, true], [[], [9]]⟩

/-- Concrete three-page file used to witness the scan claims. -/
def fileW : HeapFile := ⟨tdDefault, [pageA, pageB, pageC]⟩

/-- A record with a 65-byte text field (one byte past the CHAR capacity). -/
def tLong : Tuple := ⟨[.charF (List.replicate 65 97)]⟩

/-- The 65-byte record inserted into an empty single-CHAR-schema file. -/
def fileLong : HeapFile := okD (HeapFile.insertTuple ⟨tdChar, []⟩ tLong) ⟨tdChar, []⟩

/-- A single-INT record. -/
def tInt5 : Tuple := ⟨[.intF 5]⟩

/-- An empty file over the single-INT schema. -/
def fileInt0 : HeapFile := ⟨tdInt, []⟩

/-- The single-INT file after one insert. -/
def fileInt1 : HeapFile := okD (fileInt0.insertTuple tInt5) fileInt0

/-! ## Lemmas and claim theorems -/

theorem natToBytes_length (w v : Nat) : (natToBytes w v).length = w := by
  induction w generalizing v with
  | zero => rfl
  | succ w ih => simp [natToBytes, ih]

theorem bytesToNat_natToBytes (w v : Nat) :
    bytesToNat (natToBytes w v) = v % 256 ^ w := by
  induction w generalizing v with
  | zero => simp [natToBytes, bytesToNat, Nat.mod_one]
  | succ w ih =>
    simp only [natToBytes, bytesToNat, ih, Nat.mod_mod_of_dvd _ dvd_rfl]
    rw [pow_succ', Nat.mod_mul]

theorem bytesToInt_intToBytes (v : Int) (h1 : -(2 ^ 31) ≤ v) (h2 : v < 2 ^ 31) :
    bytesToInt (intToBytes v) = v := by
  simp only [bytesToInt, intToBytes, bytesToNat_natToBytes, INT_SIZE]
  norm_num
  split <;> omega

theorem charToBytes_length (s : List Nat) : (charToBytes s).length = CHAR_SIZE := by
  simp [charToBytes, CHAR_SIZE]
  omega

theorem takeWhile_append_zeros (xs : List Nat) (k : Nat) :
    (xs ++ List.replicate k 0).takeWhile (fun b => b ≠ 0) =
      xs.takeWhile (fun b => b ≠ 0) := by
  induction xs with
  | nil =>
    induction k with
    | zero => rfl
    | succ k ihk => simp [List.replicate_succ]
  | cons a xs ih =>
    simp only [ne_eq, decide_not] at ih
    by_cases ha : a = 0 <;> simp [List.takeWhile_cons, ha, ih]

theorem bytesToChar_charToBytes (s : List Nat) :
    bytesToChar (charToBytes s) = (s.take CHAR_SIZE).takeWhile (fun b => b ≠ 0) := by
  have hlen : (charToBytes s).length ≤ CHAR_SIZE := le_of_eq (charToBytes_length s)
  rw [bytesToChar, List.take_of_length_le hlen, charToBytes, takeWhile_append_zeros]

theorem serializeField_eq_encode (ty : type_t) (f : field_t)
    (h : field_type f = ty) : serializeField ty f = .ok (encodeField ty f) := by
  cases f <;> cases ty <;> simp_all [serializeField, encodeField, field_type]

theorem encodeField_length (ty : type_t) (f : field_t) (h : field_type f = ty) :
    (encodeField ty f).length = size_of ty := by
  cases f <;> cases ty <;>
    simp_all [encodeField, field_type, size_of, natToBytes_length,
      charToBytes_length, intToBytes, INT_SIZE, DOUBLE_SIZE, CHAR_SIZE]

theorem buildOffsets_snd (types : List type_t) (off : Nat) :
    (buildOffsets types off).2 = off + (types.map size_of).sum := by
  induction types generalizing off with
  | nil => simp [buildOffsets]
  | cons ty rest ih => simp [buildOffsets, ih]; omega

theorem buildOffsets_fst_length (types : List type_t) (off : Nat) :
    (buildOffsets types off).1.length = types.length := by
  induction types generalizing off with
  | nil => rfl
  | cons ty rest ih => simp [buildOffsets, ih]

theorem writeAt_length (buf : List Nat) (off : Nat) (bs : List Nat)
    (h : off + bs.length ≤ buf.length) :
    (writeAt buf off bs).length = buf.length := by
  simp [writeAt]
  omega

theorem compatible_iff (td : TupleDesc) (t : Tuple) :
    td.compatible t = true ↔
      t.fields.length = td.types_.length ∧
        ∀ p ∈ td.types_.zip t.fields, field_type p.2 = p.1 := by
  simp [TupleDesc.compatible, Tuple.size, List.all_eq_true]

theorem serializeLoop_concat :
    ∀ (types : List type_t) (fields : List field_t) (off : Nat) (buf : List Nat),
      types.length = fields.length →
      (∀ p ∈ types.zip fields, field_type p.2 = p.1) →
      off + (types.map size_of).sum ≤ buf.length →
      serializeLoop (types.zip (((buildOffsets types off).1).zip fields)) buf =
        .ok (buf.take off ++ encodeTuple types fields ++
          buf.drop (off + (types.map size_of).sum)) := by
  intro types
  induction types with
  | nil =>
    intro fields off buf _ _ _
    simp [buildOffsets, serializeLoop, encodeTuple]
  | cons ty tys ih =>
    intro fields off buf hlen htags hroom
    cases fields with
    | nil => simp at hlen
    | cons f fs =>
      have htag : field_type f = ty := htags (ty, f) (by simp)
      have hw : (encodeField ty f).length = size_of ty := encodeField_length ty f htag
      simp only [buildOffsets, List.zip_cons_cons, serializeLoop,
        serializeField_eq_encode ty f htag, ← List.zip_eq_zipWith]
      have hsum : (List.map size_of (ty :: tys)).sum
          = size_of ty + (List.map size_of tys).sum := by simp
      have hroom2 : off + size_of ty + (List.map size_of tys).sum ≤ buf.length := by
        rw [hsum] at hroom; omega
      have hofflen : off ≤ buf.length := by omega
      have hlen2 : (writeAt buf off (encodeField ty f)).length = buf.length :=
        writeAt_length buf off (encodeField ty f) (by omega)
      rw [ih fs (off + size_of ty) (writeAt buf off (encodeField ty f))
        (by simpa using hlen)
        (fun p hp => htags p (by simp [hp]))
        (by omega)]
      have htake : (buf.take off).length = off := by
        simp [List.length_take]; omega
      have hpre : (writeAt buf off (encodeField ty f)).take (off + size_of ty) =
          buf.take off ++ encodeField ty f := by
        rw [writeAt]
        refine List.take_left' ?_
        simp [htake, hw]
      have hdrop : (writeAt buf off (encodeField ty f)).drop (off + size_of ty) =
          buf.drop (off + size_of ty) := by
        rw [writeAt, hw]
        exact List.drop_left' (by simp [htake, hw])
      have hsuf : ∀ m, (writeAt buf off (encodeField ty f)).drop
          (off + size_of ty + m) = buf.drop (off + size_of ty + m) := by
        intro m
        have h1 := congrArg (List.drop m) hdrop
        have e : m + (off + size_of ty) = off + size_of ty + m := by omega
        simpa [List.drop_drop, e] using h1
      rw [hpre, hsuf, hsum]
      simp [encodeTuple, List.append_assoc, Nat.add_assoc]

theorem make_ok_iff (types : List type_t) (names : List String) :
    (∃ td, TupleDesc.make types names = .ok td) ↔
      (types.length = names.length ∧ names.Nodup) := by
  rw [TupleDesc.make]
  by_cases h1 : types.length = names.length
  · by_cases h2 : names.Nodup
    · simp [h1, h2]
    · simp [h1, h2]
  · simp [h1]

theorem make_ok_elim (types : List type_t) (names : List String) (td : TupleDesc)
    (h : TupleDesc.make types names = .ok td) :
    td.types_ = types ∧ td.names_ = names ∧
      td.offsets_ = (buildOffsets types 0).1 ∧
      td.length_ = (buildOffsets types 0).2 ∧
      types.length = names.length ∧ names.Nodup := by
  rw [TupleDesc.make] at h
  by_cases h1 : types.length = names.length
  · by_cases h2 : names.Nodup
    · simp [h1, h2] at h
      subst h
      exact ⟨rfl, rfl, rfl, rfl, h1, h2⟩
    · simp [h1, h2] at h
  · simp [h1] at h

theorem serializeLoop_ok :
    ∀ (types : List type_t) (offs : List Nat) (fields : List field_t)
      (buf : List Nat),
      (∀ p ∈ types.zip fields, field_type p.2 = p.1) →
      ∃ out, serializeLoop (types.zip (offs.zip fields)) buf = .ok out := by
  intro types
  induction types with
  | nil => intro offs fields buf _; exact ⟨buf, rfl⟩
  | cons ty tys ih =>
    intro offs fields buf htags
    cases offs with
    | nil => exact ⟨buf, rfl⟩
    | cons o os =>
      cases fields with
      | nil => exact ⟨buf, rfl⟩
      | cons f fs =>
        have htag : field_type f = ty := htags (ty, f) (by simp)
        simp only [List.zip_cons_cons, serializeLoop,
          serializeField_eq_encode ty f htag, ← List.zip_eq_zipWith]
        exact ih os fs _ fun p hp => htags p (by simp [hp])

theorem serialize_ok_iff (td : TupleDesc) (buf : List Nat) (t : Tuple) :
    (∃ out, td.serialize buf t = .ok out) ↔ td.compatible t = true := by
  constructor
  · intro ⟨out, hout⟩
    by_contra hc
    rw [TupleDesc.serialize] at hout
    simp [hc] at hout
  · intro hc
    rw [TupleDesc.serialize]
    simp only [hc]
    simpa using serializeLoop_ok td.types_ td.offsets_ t.fields buf
      ((compatible_iff td t).mp hc).2

theorem serialize_incompatible (td : TupleDesc) (buf : List Nat) (t : Tuple)
    (h : td.compatible t = false) :
    td.serialize buf t = .error .incompatible := by
  rw [TupleDesc.serialize]
  simp [h]

theorem deserializeField_append (ty : type_t) (f : field_t)
    (h : field_type f = ty) (rest : List Nat) :
    deserializeField ty (encodeField ty f ++ rest) =
      deserializeField ty (encodeField ty f) := by
  have hw : (encodeField ty f).length = size_of ty := encodeField_length ty f h
  cases f <;> cases ty <;> simp_all [deserializeField, encodeField, field_type,
    size_of, INT_SIZE, DOUBLE_SIZE, CHAR_SIZE, bytesToChar,
    List.take_append_eq_append_take, List.take_of_length_le]

theorem deserializeField_encodeField (ty : type_t) (f : field_t)
    (h : field_type f = ty) (hwf : field_wf f = true) :
    deserializeField ty (encodeField ty f) = truncField f := by
  cases f with
  | intF v =>
    subst h
    simp only [field_wf, Bool.and_eq_true, decide_eq_true_eq] at hwf
    have h4 : (intToBytes v).take INT_SIZE = intToBytes v :=
      List.take_of_length_le (by simp [intToBytes, natToBytes_length])
    simp [field_type, deserializeField, encodeField, truncField, h4,
      bytesToInt_intToBytes v hwf.1 hwf.2]
  | doubleF bits =>
    subst h
    simp only [field_wf, decide_eq_true_eq] at hwf
    have h8 : (natToBytes DOUBLE_SIZE bits).take DOUBLE_SIZE
        = natToBytes DOUBLE_SIZE bits :=
      List.take_of_length_le (by simp [natToBytes_length])
    simp only [field_type, deserializeField, encodeField, truncField, h8,
      bytesToNat_natToBytes]
    congr 1
    rw [Nat.mod_eq_of_lt]
    exact lt_of_lt_of_le hwf (by norm_num [DOUBLE_SIZE])
  | charF s =>
    subst h
    simp [field_type, deserializeField, encodeField, truncField,
      bytesToChar_charToBytes]

theorem deserialize_concat :
    ∀ (types : List type_t) (fields : List field_t) (off : Nat)
      (data post : List Nat),
      types.length = fields.length →
      (∀ p ∈ types.zip fields, field_type p.2 = p.1) →
      data.drop off = encodeTuple types fields ++ post →
      ((types.zip ((buildOffsets types off).1)).map
          fun p => deserializeField p.1 (data.drop p.2)) =
        (types.zip fields).map fun p => deserializeField p.1 (encodeField p.1 p.2) := by
  intro types
  induction types with
  | nil => intro fields off data post _ _ _; simp [buildOffsets]
  | cons ty tys ih =>
    intro fields off data post hlen htags hdrop
    cases fields with
    | nil => simp at hlen
    | cons f fs =>
      have htag : field_type f = ty := htags (ty, f) (by simp)
      have hw : (encodeField ty f).length = size_of ty := encodeField_length ty f htag
      have henc : encodeTuple (ty :: tys) (f :: fs)
          = encodeField ty f ++ encodeTuple tys fs := rfl
      simp only [buildOffsets, List.zip_cons_cons, List.map_cons,
        ← List.zip_eq_zipWith]
      congr 1
      · rw [hdrop, henc, List.append_assoc]
        exact deserializeField_append ty f htag _
      · refine ih fs (off + size_of ty) data (post) ?_ ?_ ?_
        · simpa using hlen
        · exact fun p hp => htags p (by simp [hp])
        · have h1 := congrArg (List.drop (size_of ty)) hdrop
          rw [List.drop_drop] at h1
          rw [h1, henc, List.append_assoc]
          exact List.drop_left' hw

theorem zip_map_trunc :
    ∀ (types : List type_t) (fields : List field_t),
      types.length = fields.length →
      (∀ p ∈ types.zip fields, field_type p.2 = p.1) →
      fields.all field_wf = true →
      ((types.zip fields).map fun p => deserializeField p.1 (encodeField p.1 p.2)) =
        fields.map truncField := by
  intro types
  induction types with
  | nil =>
    intro fields hlen _ _
    cases fields with
    | nil => rfl
    | cons f fs => simp at hlen
  | cons ty tys ih =>
    intro fields hlen htags hwf
    cases fields with
    | nil => simp at hlen
    | cons f fs =>
      simp only [List.all_cons, Bool.and_eq_true] at hwf
      simp only [List.zip_cons_cons, List.map_cons, ← List.zip_eq_zipWith]
      rw [deserializeField_encodeField ty f (htags (ty, f) (by simp)) hwf.1,
        ih fs (by simpa using hlen) (fun p hp => htags p (by simp [hp])) hwf.2]

theorem round_trip (types : List type_t) (names : List String)
    (td : TupleDesc) (t : Tuple) (buf : List Nat)
    (hmk : TupleDesc.make types names = .ok td)
    (hc : td.compatible t = true) (hwf : t.wf = true)
    (hbuf : td.length_ ≤ buf.length) :
    ∃ out, td.serialize buf t = .ok out ∧ td.deserialize out = truncTuple t := by
  obtain ⟨hty, -, hoff, hlen, -, -⟩ := make_ok_elim types names td hmk
  obtain ⟨hflen, htags⟩ := (compatible_iff td t).mp hc
  have hflen2 : types.length = t.fields.length := by rw [hty] at hflen; omega
  have htags2 : ∀ p ∈ types.zip t.fields, field_type p.2 = p.1 := by
    rw [← hty]; exact htags
  have hsum : td.length_ = (types.map size_of).sum := by
    rw [hlen, buildOffsets_snd]; omega
  have hout : td.serialize buf t =
      .ok (encodeTuple types t.fields ++ buf.drop ((types.map size_of).sum)) := by
    rw [TupleDesc.serialize]
    simp only [hc, not_true, if_false]
    rw [hty, hoff]
    have h0 := serializeLoop_concat types t.fields 0 buf hflen2 htags2 (by omega)
    simpa using h0
  refine ⟨_, hout, ?_⟩
  rw [TupleDesc.deserialize, hty, hoff]
  have hdrop : (encodeTuple types t.fields ++
      buf.drop ((types.map size_of).sum)).drop 0 =
      encodeTuple types t.fields ++ buf.drop ((types.map size_of).sum) := rfl
  rw [Tuple.mk.injEq, truncTuple]
  rw [deserialize_concat types t.fields 0 _ _ hflen2 htags2 hdrop]
  exact zip_map_trunc types t.fields hflen2 htags2 (by simpa [Tuple.wf] using hwf)

theorem truncTuple_eq_self (t : Tuple)
    (h : ∀ s, field_t.charF s ∈ t.fields → s.length ≤ CHAR_SIZE ∧ (0 : Nat) ∉ s) :
    truncTuple t = t := by
  rw [truncTuple, Tuple.mk.injEq]
  rw [show t.fields.map truncField = t.fields.map id from List.map_congr_left ?_,
    List.map_id]
  intro f hf
  show truncField f = f
  cases f with
  | intF v => rfl
  | doubleF bits => rfl
  | charF s =>
    obtain ⟨h1, h2⟩ := h s hf
    rw [truncField, List.take_of_length_le h1]
    rw [List.takeWhile_eq_self_iff.mpr]
    intro x hx
    simp only [ne_eq, decide_eq_true_eq]
    intro hx0
    exact h2 (hx0 ▸ hx)

theorem deserializeField_tag (ty : type_t) (bs : List Nat) :
    field_type (deserializeField ty bs) = ty := by
  cases ty <;> rfl

theorem bytesToChar_length_le (bs : List Nat) :
    (bytesToChar bs).length ≤ CHAR_SIZE :=
  le_trans (List.takeWhile_sublist _).length_le (List.length_take_le _ _)

theorem bytesToChar_zero_not_mem (bs : List Nat) : (0 : Nat) ∉ bytesToChar bs := by
  intro hmem
  have := List.mem_takeWhile_imp hmem
  simp at this

theorem deserialize_fields_shape :
    ∀ (types : List type_t) (offs : List Nat) (data : List Nat),
      types.length = offs.length →
      ((types.zip offs).map fun p => deserializeField p.1 (data.drop p.2)).length
          = types.length ∧
        ∀ p ∈ types.zip
            ((types.zip offs).map fun p => deserializeField p.1 (data.drop p.2)),
          field_type p.2 = p.1 := by
  intro types
  induction types with
  | nil => intro offs data _; simp
  | cons ty tys ih =>
    intro offs data hl
    cases offs with
    | nil => simp at hl
    | cons o os =>
      have hl2 : tys.length = os.length := by simpa using hl
      obtain ⟨ihlen, ihtags⟩ := ih os data hl2
      simp only [List.zip_cons_cons, List.map_cons, List.length_cons,
        ← List.zip_eq_zipWith]
      refine ⟨by simpa using ihlen, ?_⟩
      intro p hp
      rcases List.mem_cons.mp hp with h | h
      · subst h; exact deserializeField_tag ty _
      · exact ihtags p h

/-- C3: for a validly constructed schema and a compatible well-formed record,
serializing into a buffer of at least the schema's length and deserializing
yields the record with every text field cut at its first zero byte after
truncation to 64 bytes; the result equals the record exactly when every text
field has at most 64 bytes and contains no zero byte. -/
theorem claim_C3_round_trip (types : List type_t) (names : List String)
    (td : TupleDesc) (t : Tuple) (buf : List Nat)
    (hmk : TupleDesc.make types names = .ok td)
    (hc : td.compatible t = true) (hwf : t.wf = true)
    (hbuf : td.length_ ≤ buf.length) :
    ∃ out, td.serialize buf t = .ok out ∧ td.deserialize out = truncTuple t ∧
      ((∀ s, field_t.charF s ∈ t.fields → s.length ≤ CHAR_SIZE ∧ (0 : Nat) ∉ s) →
        td.deserialize out = t) := by
  obtain ⟨out, h1, h2⟩ := round_trip types names td t buf hmk hc hwf hbuf
  exact ⟨out, h1, h2, fun h => h2.trans (truncTuple_eq_self t h)⟩

/-- C3 counterexample: the record whose single text field is the one-byte
string `"\x00"` is compatible and well formed, yet its round trip is the empty
string, not the claimed 64-byte truncation (which would be `"\x00"` itself). -/
theorem claim_C3_counterexample :
    TupleDesc.make [.CHAR] ["x"] = .ok tdChar ∧
      tdChar.compatible ⟨[.charF [0]]⟩ = true ∧
      Tuple.wf ⟨[.charF [0]]⟩ = true ∧
      ([0] : List Nat).take CHAR_SIZE = [0] ∧
      tdChar.deserialize
          (okD (tdChar.serialize (List.replicate 64 0) ⟨[.charF [0]]⟩) []) =
        ⟨[.charF []]⟩ ∧
      (Tuple.mk [.charF []] ≠ ⟨[.charF [0]]⟩) := by
  refine ⟨by decide, by decide, by decide, by decide, by decide, by decide⟩

/-- C3 witness: the amended round trip applied to the concrete record
`("a")` under the single-CHAR schema. -/
theorem claim_C3_witness :
    ∃ out, tdChar.serialize (List.replicate 64 0) ⟨[.charF [97]]⟩ = .ok out ∧
      tdChar.deserialize out = truncTuple ⟨[.charF [97]]⟩ ∧
      ((∀ s, field_t.charF s ∈ (Tuple.mk [.charF [97]]).fields →
          s.length ≤ CHAR_SIZE ∧ (0 : Nat) ∉ s) →
        tdChar.deserialize out = ⟨[.charF [97]]⟩) :=
  claim_C3_round_trip [.CHAR] ["x"] tdChar ⟨[.charF [97]]⟩ (List.replicate 64 0)
    (by decide) (by decide) (by decide) (by decide)

/-- C4: serialization succeeds exactly when the record is compatible with the
schema, and an incompatible record is rejected as a whole before any byte of
the buffer is written (the error is returned with no output buffer). -/
theorem claim_C4_serialize_iff_compatible (td : TupleDesc) (buf : List Nat)
    (t : Tuple) :
    ((∃ out, td.serialize buf t = .ok out) ↔ td.compatible t = true) ∧
      (td.compatible t = false → td.serialize buf t = .error .incompatible) :=
  ⟨serialize_ok_iff td buf t, serialize_incompatible td buf t⟩

/-- C4 witness: a double field under an INT schema is incompatible and
rejected whole. -/
theorem claim_C4_witness :
    tdInt.serialize (List.replicate 4 0) ⟨[.doubleF 0]⟩ = .error .incompatible :=
  (claim_C4_serialize_iff_compatible tdInt (List.replicate 4 0)
    ⟨[.doubleF 0]⟩).2 (by decide)

/-- C10: deserializing any buffer of at least the schema's length yields a
tuple compatible with the schema, whose text fields all have at most 64 bytes
and contain no zero byte. -/
theorem claim_C10_deserialize_compatible (types : List type_t)
    (names : List String) (td : TupleDesc) (buf : List Nat)
    (hmk : TupleDesc.make types names = .ok td)
    (hbuf : td.length_ ≤ buf.length) :
    td.compatible (td.deserialize buf) = true ∧
      ∀ f ∈ (td.deserialize buf).fields, ∀ s, f = field_t.charF s →
        s.length ≤ CHAR_SIZE ∧ (0 : Nat) ∉ s := by
  obtain ⟨hty, -, hoff, -, -, -⟩ := make_ok_elim types names td hmk
  have hlens : td.types_.length = td.offsets_.length := by
    rw [hty, hoff, buildOffsets_fst_length]
  obtain ⟨hlen, htags⟩ := deserialize_fields_shape td.types_ td.offsets_ buf hlens
  constructor
  · exact (compatible_iff td _).mpr ⟨by rw [TupleDesc.deserialize]; exact hlen,
      by rw [TupleDesc.deserialize]; exact htags⟩
  · intro f hf s hs
    rw [TupleDesc.deserialize] at hf
    obtain ⟨p, hp, hpf⟩ := List.mem_map.mp hf
    subst hpf
    cases hty2 : p.1 with
    | INT => rw [hty2] at hs; simp [deserializeField] at hs
    | DOUBLE => rw [hty2] at hs; simp [deserializeField] at hs
    | CHAR =>
      rw [hty2] at hs
      simp only [deserializeField, field_t.charF.injEq] at hs
      subst hs
      exact ⟨bytesToChar_length_le _, bytesToChar_zero_not_mem _⟩

/-- C10 witness: decoding an arbitrary 4-byte buffer under the INT schema
yields a compatible tuple. -/
theorem claim_C10_witness :
    tdInt.compatible (tdInt.deserialize (List.replicate 4 7)) = true :=
  (claim_C10_deserialize_compatible [.INT] ["a"] tdInt (List.replicate 4 7)
    (by decide) (by decide)).1

/-- C5: constructing a schema fails exactly when the type and name lists have
different lengths or a name repeats; merging two validly constructed schemas
fails exactly when their name sets collide, and a disjoint-name merge yields
td1's fields followed by td2's, with field count the sum of both. -/
theorem claim_C5_schema_uniqueness (types : List type_t) (names : List String)
    (tys1 tys2 : List type_t) (ns1 ns2 : List String) (td1 td2 : TupleDesc) :
    ((∃ td, TupleDesc.make types names = .ok td) ↔
      (types.length = names.length ∧ names.Nodup)) ∧
    (TupleDesc.make tys1 ns1 = .ok td1 → TupleDesc.make tys2 ns2 = .ok td2 →
      (((∃ td, TupleDesc.merge td1 td2 = .ok td) ↔
          td1.names_.Disjoint td2.names_) ∧
        ∀ td, TupleDesc.merge td1 td2 = .ok td →
          td.types_ = td1.types_ ++ td2.types_ ∧
          td.names_ = td1.names_ ++ td2.names_ ∧
          td.size = td1.size + td2.size)) := by
  refine ⟨make_ok_iff types names, ?_⟩
  intro h1 h2
  obtain ⟨hty1, hn1, -, -, hl1, hnd1⟩ := make_ok_elim tys1 ns1 td1 h1
  obtain ⟨hty2, hn2, -, -, hl2, hnd2⟩ := make_ok_elim tys2 ns2 td2 h2
  have hlen12 : (td1.types_ ++ td2.types_).length
      = (td1.names_ ++ td2.names_).length := by
    simp [hty1, hty2, hn1, hn2, hl1, hl2]
  constructor
  · rw [TupleDesc.merge, make_ok_iff]
    rw [List.nodup_append]
    subst hn1 hn2
    simp [hlen12, hnd1, hnd2]
  · intro td hmg
    rw [TupleDesc.merge] at hmg
    obtain ⟨hty, hn, -, -, -, -⟩ := make_ok_elim _ _ td hmg
    refine ⟨hty, hn, ?_⟩
    simp [TupleDesc.size, hty]

/-- C5 witness: the disjoint-name merge of the INT schema `["a"]` with the
CHAR schema `["x"]` succeeds. -/
theorem claim_C5_witness : ∃ td, TupleDesc.merge tdInt tdChar = .ok td := by
  refine (((claim_C5_schema_uniqueness [] [] [.INT] [.CHAR] ["a"] ["x"] tdInt
    tdChar).2 (by decide) (by decide)).1).mpr ?_
  have e1 : tdInt.names_ = ["a"] := by decide
  have e2 : tdChar.names_ = ["x"] := by decide
  rw [e1, e2]
  intro a ha hb
  simp only [List.mem_singleton] at ha hb
  subst ha
  exact absurd hb (by decide)

theorem buildOffsets_getD :
    ∀ (types : List type_t) (off i : Nat), i < types.length →
      (buildOffsets types off).1.getD i 0
        = off + ((types.take i).map size_of).sum := by
  intro types
  induction types with
  | nil => intro off i h; simp at h
  | cons ty tys ih =>
    intro off i h
    cases i with
    | zero => simp [buildOffsets]
    | succ i =>
      have hi : i < tys.length := by simpa using h
      simp only [buildOffsets, List.getD_cons_succ, ih (off + size_of ty) i hi,
        List.take_succ_cons, List.map_cons, List.sum_cons]
      omega

/-- C6: for a validly constructed schema, each field's width depends only on
its type (INT = 4, DOUBLE = 8, CHAR = 64), `offset_of i` is the sum of the
widths of the fields before `i`, and `length` is the sum of all widths. -/
theorem claim_C6_offsets_prefix_sum (types : List type_t) (names : List String)
    (td : TupleDesc) (hmk : TupleDesc.make types names = .ok td) :
    (size_of .INT = 4 ∧ size_of .DOUBLE = 8 ∧ size_of .CHAR = 64) ∧
      td.length = (types.map size_of).sum ∧
      ∀ i, i < types.length →
        td.offset_of i = .ok (((types.take i).map size_of).sum) := by
  obtain ⟨hty, -, hoff, hlen, -, -⟩ := make_ok_elim types names td hmk
  refine ⟨⟨rfl, rfl, rfl⟩, ?_, ?_⟩
  · rw [TupleDesc.length, hlen, buildOffsets_snd]; omega
  · intro i hi
    have hilen : i < td.offsets_.length := by
      rw [hoff, buildOffsets_fst_length]; exact hi
    rw [TupleDesc.offset_of, dif_pos hilen]
    congr 1
    have hgd : td.offsets_.getD i 0 = td.offsets_.get ⟨i, hilen⟩ := by
      simp [List.getD_eq_getElem?_getD, List.getElem?_eq_getElem hilen]
    rw [← hgd, hoff, buildOffsets_getD types 0 i hi]
    omega

/-- C6 witness: the schema `[(INT, id), (CHAR, name)]` has length 68 and
field 1 at offset 4. -/
theorem claim_C6_witness : tdIC.length = 68 ∧ tdIC.offset_of 1 = .ok 4 := by
  obtain ⟨-, h2, h3⟩ :=
    claim_C6_offsets_prefix_sum [.INT, .CHAR] ["id", "name"] tdIC (by decide)
  exact ⟨by rw [h2]; decide, by rw [h3 1 (by decide)]; decide⟩

/-- C8: `next` on a locator whose page index is at or past the page count is a
pure normalization to the sentinel `(page count, 0)`; in particular `next`
applied to `end` yields `end` again (the file itself is never touched: `next`
only returns a locator). -/
theorem claim_C8_next_past_end (f : HeapFile) (p s : Nat)
    (hp : p ≥ f.getNumPages) :
    f.next (p, s) = (f.getNumPages, 0) ∧ f.next f.endLoc = f.endLoc := by
  constructor
  · rw [HeapFile.next]
    simp only [HeapFile.getNumPages] at hp ⊢
    simp [hp]
  · rw [HeapFile.next, HeapFile.endLoc]
    simp

/-- C8 witness: on the concrete three-page file, `next (5, 0)` and
`next end` both give the sentinel `(3, 0)`. -/
theorem claim_C8_witness :
    fileW.next (5, 0) = (3, 0) ∧ fileW.next fileW.endLoc = fileW.endLoc :=
  claim_C8_next_past_end fileW 5 0 (by decide)

/-- C9: inserting a record incompatible with the file's schema fails up front
with the incompatibility error, and the stored pages are unchanged. -/
theorem claim_C9_incompatible_insert_rejected (f : HeapFile) (t : Tuple)
    (h : f.td.compatible t = false) :
    f.insertTuple t = .error .incompatible ∧
      pagesAfter f (f.insertTuple t) = f.pages := by
  have he : f.insertTuple t = .error .incompatible := by
    rw [HeapFile.insertTuple]
    simp [h]
  exact ⟨he, by rw [pagesAfter.eq_def, he]⟩

/-- C9 witness: a CHAR record is rejected by the INT-schema file. -/
theorem claim_C9_witness :
    fileInt0.insertTuple ⟨[.charF []]⟩ = .error .incompatible :=
  (claim_C9_incompatible_insert_rejected fileInt0 ⟨[.charF []]⟩ (by decide)).1

/-- C7 (amended): a locator whose page index is at or past the page count
makes `deleteTuple` and `getTuple` fail with the out-of-range error; for an
in-range page the operations fail with the out-of-range error exactly when the
slot is at or past the page's capacity and with the invalid-slot error exactly
when the slot is in range but dead; any rejected `deleteTuple` leaves every
stored page unchanged. -/
theorem claim_C7_delete_get_errors (f : HeapFile) (it : Nat × Nat) :
    (it.1 ≥ f.getNumPages →
      f.deleteTuple it = .error .outOfRange ∧
        f.getTuple it = .error .outOfRange) ∧
    (it.1 < f.getNumPages →
      ((f.deleteTuple it = .error .outOfRange ↔
          it.2 ≥ (f.pages.getD it.1 (emptyPage f.td)).live.length) ∧
       (f.getTuple it = .error .outOfRange ↔
          it.2 ≥ (f.pages.getD it.1 (emptyPage f.td)).live.length) ∧
       (f.deleteTuple it = .error .invalidSlot ↔
          (it.2 < (f.pages.getD it.1 (emptyPage f.td)).live.length ∧
            (f.pages.getD it.1 (emptyPage f.td)).live.getD it.2 false = false)) ∧
       (f.getTuple it = .error .invalidSlot ↔
          (it.2 < (f.pages.getD it.1 (emptyPage f.td)).live.length ∧
            (f.pages.getD it.1 (emptyPage f.td)).live.getD it.2 false = false)))) ∧
    (∀ e, f.deleteTuple it = .error e →
      pagesAfter f (f.deleteTuple it) = f.pages) := by
  refine ⟨?_, ?_, ?_⟩
  · intro hio
    simp only [HeapFile.getNumPages] at hio
    constructor
    · rw [HeapFile.deleteTuple, if_pos hio]
    · rw [HeapFile.getTuple, if_pos hio]
  · intro hio
    simp only [HeapFile.getNumPages] at hio
    have hnot : ¬ it.1 ≥ f.pages.length := by omega
    rw [HeapFile.deleteTuple, HeapFile.getTuple, if_neg hnot, if_neg hnot,
      HeapPage.deleteTuple, HeapPage.getTuple]
    split_ifs with hs hd
    · have hnotboth : ¬ (it.2 < (f.pages.getD it.1 (emptyPage f.td)).live.length ∧
          (f.pages.getD it.1 (emptyPage f.td)).live.getD it.2 false = false) := by
        rintro ⟨h1, -⟩
        exact absurd hs (by omega)
      refine ⟨iff_of_true rfl hs, iff_of_true rfl hs,
        iff_of_false ?_ hnotboth, iff_of_false ?_ hnotboth⟩
      · intro h
        exact DbError.noConfusion (Except.error.inj h)
      · intro h
        exact DbError.noConfusion (Except.error.inj h)
    · have hlt : it.2 < (f.pages.getD it.1 (emptyPage f.td)).live.length := by
        omega
      refine ⟨iff_of_false ?_ hs, iff_of_false ?_ hs,
        iff_of_true rfl ⟨hlt, hd⟩, iff_of_true rfl ⟨hlt, hd⟩⟩
      · intro h
        exact DbError.noConfusion (Except.error.inj h)
      · intro h
        exact DbError.noConfusion (Except.error.inj h)
    · have hnotdead : ¬ (it.2 < (f.pages.getD it.1 (emptyPage f.td)).live.length ∧
          (f.pages.getD it.1 (emptyPage f.td)).live.getD it.2 false = false) := by
        rintro ⟨-, h2⟩
        exact hd h2
      refine ⟨iff_of_false ?_ hs, iff_of_false ?_ hs,
        iff_of_false ?_ hnotdead, iff_of_false ?_ hnotdead⟩
      · intro h
        exact h.elim
      · intro h
        exact h.elim
      · intro h
        exact h.elim
      · intro h
        exact h.elim
  · intro e he
    rw [pagesAfter.eq_def, he]

/-- C7 counterexample: on the three-page file, `getTuple` and `deleteTuple`
at the in-range page 0 but out-of-capacity slot 5 also fail with the
out-of-range error, so out-of-range failures are not confined to locators
whose page index reaches the page count. -/
theorem claim_C7_counterexample :
    fileW.getTuple (0, 5) = .error .outOfRange ∧
      fileW.deleteTuple (0, 5) = .error .outOfRange ∧
      0 < fileW.getNumPages := by
  refine ⟨by decide, by decide, by decide⟩

/-- C7 witness: past-the-end page index 3 is rejected as out of range. -/
theorem claim_C7_witness :
    fileW.deleteTuple (3, 0) = .error .outOfRange ∧
      fileW.getTuple (3, 0) = .error .outOfRange :=
  (claim_C7_delete_get_errors fileW (3, 0)).1 (by decide)

theorem find?_eq_head?_filter {α : Type} (p : α → Bool) (l : List α) :
    l.find? p = (l.filter p).head? := by
  induction l with
  | nil => rfl
  | cons a l ih =>
    by_cases h : p a
    · simp [List.find?_cons, List.filter_cons, h]
    · rw [List.find?_cons_of_neg _ (by simp [h]),
        List.filter_cons_of_neg (by simp [h]), ih]

theorem page_insert_full (td : TupleDesc) (hp : HeapPage) (t : Tuple)
    (hfull : false ∉ hp.live) : hp.insertTuple td t = none := by
  rw [HeapPage.insertTuple]
  have hnone : (List.range hp.live.length).find?
      (fun i => ! hp.live.getD i false) = none := by
    rw [List.find?_eq_none]
    intro i hi
    have hlen : i < hp.live.length := List.mem_range.mp hi
    have : hp.live.getD i false = hp.live.get ⟨i, hlen⟩ := by
      simp [List.getD_eq_getElem?_getD, List.getElem?_eq_getElem hlen]
    intro hcon
    simp only [this, Bool.not_eq_true'] at hcon
    exact hfull (hcon ▸ List.get_mem hp.live i hlen)
  rw [hnone]

theorem page_insert_free (td : TupleDesc) (hp : HeapPage) (t : Tuple)
    (hc : td.compatible t = true) (hfree : false ∈ hp.live) :
    ∃ hp2, hp.insertTuple td t = some hp2 := by
  rw [HeapPage.insertTuple]
  obtain ⟨i, hget⟩ := List.mem_iff_get.mp hfree
  have hgd : hp.live.getD i.1 false = false := by
    have h2 : hp.live.getD i.1 false = hp.live.get i := by
      simp [List.getD_eq_getElem?_getD, List.getElem?_eq_getElem i.2]
    rw [h2, hget]
  have hp0 : (fun j => ! hp.live.getD j false) i.1 = true := by
    show (! hp.live.getD i.1 false) = true
    rw [hgd]
    rfl
  have : ∃ j, (List.range hp.live.length).find?
      (fun j => ! hp.live.getD j false) = some j := by
    cases hfind : (List.range hp.live.length).find?
        (fun j => ! hp.live.getD j false) with
    | some j => exact ⟨j, rfl⟩
    | none =>
      rw [List.find?_eq_none] at hfind
      exact absurd hp0 (hfind i.1 (List.mem_range.mpr i.2))
  obtain ⟨j, hj⟩ := this
  rw [hj]
  obtain ⟨out, hout⟩ := (serialize_ok_iff td
    (hp.slots.getD j (List.replicate td.length_ 0)) t).mpr hc
  refine ⟨⟨hp.live.set j true, hp.slots.set j out⟩, ?_⟩
  have hred : (match td.serialize (hp.slots.getD j
        (List.replicate td.length_ 0)) t with
      | Except.error _ => none
      | Except.ok bs =>
        some (⟨hp.live.set j true, hp.slots.set j bs⟩ : HeapPage)) =
      some (⟨hp.live.set j true, hp.slots.set j out⟩ : HeapPage) := by
    rw [hout]
  exact hred

theorem emptyPage_insert (types : List type_t) (names : List String)
    (td : TupleDesc) (t : Tuple)
    (hmk : TupleDesc.make types names = .ok td)
    (hc : td.compatible t = true) (hwf : t.wf = true)
    (hcap : 1 ≤ capacity td) :
    ∃ out, td.serialize (List.replicate td.length_ 0) t = .ok out ∧
      (emptyPage td).insertTuple td t = some
        ⟨(List.replicate (capacity td) false).set 0 true,
         (List.replicate (capacity td) (List.replicate td.length_ 0)).set 0 out⟩ ∧
      td.deserialize out = truncTuple t := by
  obtain ⟨out, hser, hdes⟩ := round_trip types names td t
    (List.replicate td.length_ 0) hmk hc hwf (by simp)
  refine ⟨out, hser, ?_, hdes⟩
  obtain ⟨m, hm⟩ : ∃ m, capacity td = m + 1 :=
    ⟨capacity td - 1, by omega⟩
  rw [HeapPage.insertTuple, emptyPage]
  simp only
  rw [List.length_replicate, hm, List.range_succ_eq_map,
    List.find?_cons_of_pos _ (by simp [List.replicate_succ])]
  have hslot : (List.replicate (m + 1) (List.replicate td.length_ 0)).getD 0
      (List.replicate td.length_ 0) = List.replicate td.length_ 0 := by
    simp [List.replicate_succ]
  simp only [hslot, hser]

/-- C2 (amended): inserting a compatible well-formed record into a file whose
last page has a free slot never changes the page count; inserting into a file
whose last page is full, or into an empty file, appends exactly one page at
index equal to the previous page count, and — provided a fresh page can hold
at least one record — the codec image of the record (equal to the record
itself whenever it round-trips, see C3) is retrievable at locator
(previousPageCount, 0). -/
theorem claim_C2_insert_placement (types : List type_t) (names : List String)
    (td : TupleDesc) (pages : List HeapPage) (t : Tuple)
    (hmk : TupleDesc.make types names = .ok td)
    (hc : td.compatible t = true) (hwf : t.wf = true) :
    (pages ≠ [] →
      false ∈ (pages.getD (pages.length - 1) (emptyPage td)).live →
      ∃ f2, (HeapFile.mk td pages).insertTuple t = .ok f2 ∧
        f2.getNumPages = pages.length) ∧
    ((pages = [] ∨
        false ∉ (pages.getD (pages.length - 1) (emptyPage td)).live) →
      ∃ f2, (HeapFile.mk td pages).insertTuple t = .ok f2 ∧
        f2.getNumPages = pages.length + 1 ∧
        (∃ newp, f2.pages = pages ++ [newp]) ∧
        (1 ≤ capacity td →
          f2.getTuple (pages.length, 0) = .ok (truncTuple t))) := by
  constructor
  · intro hne hfree
    obtain ⟨hp2, hins⟩ := page_insert_free td
      (pages.getD (pages.length - 1) (emptyPage td)) t hc hfree
    have hn0 : pages.length > 0 := List.length_pos.mpr hne
    refine ⟨⟨td, pages.set (pages.length - 1) hp2⟩, ?_, by
      simp [HeapFile.getNumPages]⟩
    rw [HeapFile.insertTuple]
    simp only [hc, not_true, if_false, if_pos hn0, hins]
  · intro hcase
    have hnone : (if pages.length > 0 then
        (pages.getD (pages.length - 1) (emptyPage td)).insertTuple td t
        else none) = none := by
      rcases hcase with h | h
      · subst h; simp
      · rcases Nat.eq_zero_or_pos pages.length with h0 | h0
        · simp [h0]
        · rw [if_pos h0]
          exact page_insert_full td _ t h
    refine ⟨⟨td, pages ++
      [((emptyPage td).insertTuple td t).getD (emptyPage td)]⟩, ?_, ?_, ?_, ?_⟩
    · rw [HeapFile.insertTuple]
      simp only [hc, not_true, if_false, hnone]
    · simp [HeapFile.getNumPages]
    · exact ⟨_, rfl⟩
    · intro hcap
      obtain ⟨out, hser, hins, hdes⟩ :=
        emptyPage_insert types names td t hmk hc hwf hcap
      obtain ⟨m, hm⟩ : ∃ m, capacity td = m + 1 := ⟨capacity td - 1, by omega⟩
      rw [HeapFile.getTuple]
      simp only [hins, Option.getD_some]
      rw [if_neg (by simp)]
      have hpage : (pages ++
          [(⟨(List.replicate (capacity td) false).set 0 true,
            (List.replicate (capacity td) (List.replicate td.length_ 0)).set
              0 out⟩ : HeapPage)]).getD pages.length (emptyPage td) =
          ⟨(List.replicate (capacity td) false).set 0 true,
            (List.replicate (capacity td) (List.replicate td.length_ 0)).set
              0 out⟩ := by
        simp [List.getD_eq_getElem?_getD,
          List.getElem?_append_right (le_refl pages.length)]
      rw [hpage, HeapPage.getTuple]
      simp only [hm, List.replicate_succ, List.set_cons_zero]
      rw [if_neg (by simp), if_neg (by simp)]
      simp [hdes]

/-- C2 witness: one insert into the empty INT-schema file appends page 0 and
makes the record retrievable at (0, 0). -/
theorem claim_C2_witness :
    ∃ f2, (HeapFile.mk tdInt []).insertTuple tInt5 = .ok f2 ∧
      f2.getNumPages = List.length ([] : List HeapPage) + 1 ∧
      (∃ newp, f2.pages = [] ++ [newp]) ∧
      (1 ≤ capacity tdInt →
        f2.getTuple (List.length ([] : List HeapPage), 0) =
          .ok (truncTuple tInt5)) :=
  (claim_C2_insert_placement [.INT] ["a"] tdInt [] tInt5
    (by decide) (by decide) (by decide)).2 (Or.inl rfl)

/-- C2 counterexample: inserting the compatible 65-byte-text record into an
empty single-CHAR-schema file appends one page (page 0, capacity 63), but the
inserted record itself is retrievable at no locator of that page: slot 0
returns its 64-byte truncation, every other slot below the capacity is dead,
and every slot from the capacity up is out of range. -/
theorem claim_C2_counterexample :
    tdChar.compatible tLong = true ∧
      fileLong.getNumPages = 1 ∧
      fileLong.getTuple (0, 0) = .ok ⟨[.charF (List.replicate 64 97)]⟩ ∧
      Tuple.mk [.charF (List.replicate 64 97)] ≠ tLong ∧
      ((List.range 63).all fun s =>
        !(fileLong.getTuple (0, s) == .ok tLong)) = true ∧
      (fileLong.pages.getD 0 (emptyPage tdChar)).live.length = 63 ∧
      fileLong.getTuple (0, 63) = .error .outOfRange := by
  refine ⟨by decide, by decide, by decide, by decide, by decide, by decide,
    by decide⟩

theorem locLt_trans {a b c : Nat × Nat} (h1 : locLt a b = true)
    (h2 : locLt b c = true) : locLt a c = true := by
  simp only [locLt, Bool.or_eq_true, Bool.and_eq_true, decide_eq_true_eq] at *
  omega

theorem locLt_irrefl (a : Nat × Nat) : locLt a a = false := by
  simp [locLt]

theorem liveSlots_sorted (hp : HeapPage) : hp.liveSlots.Pairwise (· < ·) :=
  List.Pairwise.filter _ (List.pairwise_lt_range _)

theorem mem_liveSlots (hp : HeapPage) (s : Nat) :
    s ∈ hp.liveSlots ↔ s < hp.live.length ∧ hp.live.getD s false = true := by
  simp [HeapPage.liveSlots, List.mem_filter, List.mem_range]

theorem page_begin_eq (hp : HeapPage) :
    hp.begin = hp.liveSlots.head?.getD hp.live.length := by
  rw [HeapPage.begin, find?_eq_head?_filter]
  rfl

theorem page_next_eq (hp : HeapPage) (s : Nat) :
    hp.next s = ((hp.liveSlots.filter fun i => decide (s < i)).head?).getD
      hp.live.length := by
  rw [HeapPage.next, find?_eq_head?_filter, HeapPage.liveSlots,
    List.filter_filter]

theorem locsFrom_eq (f : HeapFile) (p : Nat) :
    f.locsFrom p = if p < f.pages.length
      then f.pageLocs p ++ f.locsFrom (p + 1) else [] := by
  by_cases h : p < f.pages.length
  · rw [if_pos h, HeapFile.locsFrom, HeapFile.locsFrom]
    have e : f.pages.length - p = (f.pages.length - (p + 1)) + 1 := by omega
    rw [e, List.range'_succ, List.flatMap_cons]
  · rw [if_neg h, HeapFile.locsFrom]
    have e : f.pages.length - p = 0 := by omega
    rw [e]
    rfl

theorem mem_locsFrom (f : HeapFile) (p : Nat) (x : Nat × Nat) :
    x ∈ f.locsFrom p ↔ p ≤ x.1 ∧ x.1 < f.pages.length ∧
      x.2 ∈ (f.pages.getD x.1 (emptyPage f.td)).liveSlots := by
  rw [HeapFile.locsFrom]
  simp only [List.mem_flatMap, HeapFile.pageLocs, List.mem_map]
  constructor
  · rintro ⟨q, hq, s, hs, rfl⟩
    have hr := List.mem_range'_1.mp hq
    exact ⟨hr.1, by omega, hs⟩
  · rintro ⟨h1, h2, h3⟩
    exact ⟨x.1, List.mem_range'_1.mpr ⟨h1, by omega⟩, x.2, h3, rfl⟩

theorem findFrom_eq_aux (f : HeapFile) :
    ∀ (k p : Nat), f.pages.length - p ≤ k →
      f.findFrom p = (f.locsFrom p).head?.getD (f.pages.length, 0) := by
  intro k
  induction k with
  | zero =>
    intro p hk
    have h : ¬ p < f.pages.length := by omega
    rw [HeapFile.findFrom, dif_neg h, locsFrom_eq, if_neg h]
    rfl
  | succ k ih =>
    intro p hk
    by_cases h : p < f.pages.length
    · rw [HeapFile.findFrom, dif_pos h, locsFrom_eq, if_pos h]
      cases hls : (f.pages.getD p (emptyPage f.td)).liveSlots with
      | nil =>
        have hbeg : (f.pages.getD p (emptyPage f.td)).begin
            = (f.pages.getD p (emptyPage f.td)).pageEnd := by
          rw [page_begin_eq, hls]
          rfl
        simp only [hbeg, ne_eq, not_true, if_false, ite_self]
        rw [ih (p + 1) (by omega)]
        have hpl : f.pageLocs p = [] := by
          rw [HeapFile.pageLocs, hls]
          rfl
        rw [hpl, List.nil_append]
      | cons b rest =>
        have hblt : b < (f.pages.getD p (emptyPage f.td)).live.length :=
          ((mem_liveSlots _ b).mp (by rw [hls]; exact List.mem_cons_self b rest)).1
        have hbeg : (f.pages.getD p (emptyPage f.td)).begin = b := by
          rw [page_begin_eq, hls]
          rfl
        have hne2 : b ≠ (f.pages.getD p (emptyPage f.td)).pageEnd := by
          rw [HeapPage.pageEnd]
          omega
        have hpl : f.pageLocs p = (p, b) :: rest.map fun s => (p, s) := by
          rw [HeapFile.pageLocs, hls, List.map_cons]
        simp only [hbeg]
        rw [if_pos hne2, hpl]
        rfl
    · rw [HeapFile.findFrom, dif_neg h, locsFrom_eq, if_neg h]
      rfl

theorem findFrom_eq (f : HeapFile) (p : Nat) :
    f.findFrom p = (f.locsFrom p).head?.getD (f.pages.length, 0) :=
  findFrom_eq_aux f (f.pages.length - p) p (le_refl _)

theorem filter_locsFrom (f : HeapFile) (it : Nat × Nat)
    (hp : it.1 < f.pages.length) :
    ∀ (k q : Nat), q + k = it.1 →
      (f.locsFrom q).filter (fun x => locLt it x) =
        (((f.pages.getD it.1 (emptyPage f.td)).liveSlots.filter
          fun i => decide (it.2 < i)).map fun i => (it.1, i)) ++
          f.locsFrom (it.1 + 1) := by
  intro k
  induction k with
  | zero =>
    intro q hq
    have hq2 : q = it.1 := by omega
    subst hq2
    rw [locsFrom_eq, if_pos hp, List.filter_append]
    have h2 : (f.locsFrom (it.1 + 1)).filter (fun x => locLt it x) =
        f.locsFrom (it.1 + 1) := by
      apply List.filter_eq_self.mpr
      intro x hx
      have hm := (mem_locsFrom f (it.1 + 1) x).mp hx
      simp only [locLt, Bool.or_eq_true, Bool.and_eq_true, decide_eq_true_eq]
      left
      omega
    rw [h2]
    congr 1
    rw [HeapFile.pageLocs, List.filter_map]
    congr 1
    apply List.filter_congr
    intro i hi
    show locLt it (it.1, i) = decide (it.2 < i)
    simp [locLt]
  | succ k ih =>
    intro q hq
    have hqp : q < it.1 := by omega
    have hql : q < f.pages.length := by omega
    rw [locsFrom_eq, if_pos hql, List.filter_append]
    have hnil : (f.pageLocs q).filter (fun x => locLt it x) = [] := by
      rw [List.filter_eq_nil_iff]
      intro x hx
      rw [HeapFile.pageLocs] at hx
      obtain ⟨i, hi, rfl⟩ := List.mem_map.mp hx
      simp only [locLt, Bool.or_eq_true, Bool.and_eq_true, decide_eq_true_eq,
        not_or, not_and]
      omega
    rw [hnil, List.nil_append, ih (q + 1) (by omega)]

theorem next_eq_filter (f : HeapFile) (it : Nat × Nat)
    (hp : it.1 < f.pages.length) :
    f.next it = ((f.liveLocs.filter fun x => locLt it x).head?).getD
      (f.pages.length, 0) := by
  have hdec := filter_locsFrom f it hp it.1 0 (by omega)
  rw [HeapFile.liveLocs]
  rw [hdec, HeapFile.next, if_neg (by omega)]
  simp only
  cases hfil : (f.pages.getD it.1 (emptyPage f.td)).liveSlots.filter
      (fun i => decide (it.2 < i)) with
  | nil =>
    have hnext : (f.pages.getD it.1 (emptyPage f.td)).next it.2
        = (f.pages.getD it.1 (emptyPage f.td)).pageEnd := by
      rw [page_next_eq, hfil, HeapPage.pageEnd]
      rfl
    rw [hnext]
    simp only [ne_eq, not_true, if_false, ite_self]
    rw [findFrom_eq]
    rfl
  | cons a rest =>
    have ha : a ∈ (f.pages.getD it.1 (emptyPage f.td)).liveSlots :=
      List.mem_of_mem_filter (by rw [hfil]; exact List.mem_cons_self a rest)
    have halt : a < (f.pages.getD it.1 (emptyPage f.td)).live.length :=
      ((mem_liveSlots _ a).mp ha).1
    have hnext : (f.pages.getD it.1 (emptyPage f.td)).next it.2 = a := by
      rw [page_next_eq, hfil]
      rfl
    rw [hnext, if_pos (by rw [HeapPage.pageEnd]; omega)]
    rfl

theorem locsFrom_pairwise (f : HeapFile) :
    ∀ (k p : Nat), f.pages.length - p ≤ k →
      (f.locsFrom p).Pairwise fun a b => locLt a b = true := by
  intro k
  induction k with
  | zero =>
    intro p hk
    rw [locsFrom_eq, if_neg (by omega)]
    exact List.Pairwise.nil
  | succ k ih =>
    intro p hk
    by_cases h : p < f.pages.length
    · rw [locsFrom_eq, if_pos h, List.pairwise_append]
      refine ⟨?_, ih (p + 1) (by omega), ?_⟩
      · rw [HeapFile.pageLocs, List.pairwise_map]
        refine (liveSlots_sorted _).imp fun {a b} hab => ?_
        simp [locLt, hab]
      · intro a ha b hb
        rw [HeapFile.pageLocs] at ha
        obtain ⟨i, hi, rfl⟩ := List.mem_map.mp ha
        have hm := (mem_locsFrom f (p + 1) b).mp hb
        simp only [locLt, Bool.or_eq_true, Bool.and_eq_true, decide_eq_true_eq]
        left
        omega
    · rw [locsFrom_eq, if_neg h]
      exact List.Pairwise.nil

theorem liveLocs_pairwise (f : HeapFile) :
    f.liveLocs.Pairwise fun a b => locLt a b = true :=
  locsFrom_pairwise f f.pages.length 0 (by omega)

theorem getLast?_mem {α : Type} :
    ∀ (l : List α) (x : α), l.getLast? = some x → x ∈ l := by
  intro l
  induction l with
  | nil => intro x h; simp at h
  | cons a t ih =>
    intro x h
    cases t with
    | nil =>
      simp only [List.getLast?_singleton, Option.some.injEq] at h
      subst h
      exact List.mem_singleton_self a
    | cons b t2 =>
      rw [List.getLast?_cons_cons] at h
      exact List.mem_cons_of_mem a (ih x h)

theorem pairwise_getLast_rel {R : Nat × Nat → Nat × Nat → Prop} :
    ∀ (l : List (Nat × Nat)) (x : Nat × Nat), l.Pairwise R →
      l.getLast? = some x → ∀ y ∈ l, y = x ∨ R y x := by
  intro l
  induction l with
  | nil => intro x _ h; simp at h
  | cons a t ih =>
    intro x hpw hlast y hy
    cases t with
    | nil =>
      simp only [List.getLast?_singleton, Option.some.injEq] at hlast
      rcases List.mem_singleton.mp hy with rfl
      exact Or.inl hlast
    | cons b t2 =>
      rw [List.getLast?_cons_cons] at hlast
      rcases List.mem_cons.mp hy with rfl | hyt
      · right
        exact (List.pairwise_cons.mp hpw).1 x (getLast?_mem _ x hlast)
      · exact ih x (List.pairwise_cons.mp hpw).2 hlast y hyt

theorem filter_after_getLast (f : HeapFile) (x : Nat × Nat)
    (hlast : f.liveLocs.getLast? = some x) :
    f.liveLocs.filter (fun y => locLt x y) = [] := by
  rw [List.filter_eq_nil_iff]
  intro y hy
  rcases pairwise_getLast_rel f.liveLocs x (liveLocs_pairwise f) hlast y hy with
    rfl | hrel
  · simp [locLt_irrefl]
  · intro hcon
    have h2 := locLt_trans hcon hrel
    rw [locLt_irrefl] at h2
    exact Bool.false_ne_true h2

theorem filter_tail_of_sorted (l : List (Nat × Nat)) (z x : Nat × Nat)
    (rest : List (Nat × Nat)) (hpw : l.Pairwise fun a b => locLt a b = true)
    (hfil : l.filter (fun y => locLt z y) = x :: rest) :
    l.filter (fun y => locLt x y) = rest := by
  have hzx : locLt z x = true := by
    have hx : x ∈ l.filter (fun y => locLt z y) := by
      rw [hfil]
      exact List.mem_cons_self x rest
    exact List.of_mem_filter hx
  have hstep : l.filter (fun y => locLt x y) =
      (l.filter (fun y => locLt z y)).filter (fun y => locLt x y) := by
    rw [List.filter_filter]
    apply List.filter_congr
    intro y hy
    cases hxy : locLt x y with
    | false => simp
    | true => simp [locLt_trans hzx hxy]
  rw [hstep, hfil, List.filter_cons_of_neg (by simp [locLt_irrefl])]
  apply List.filter_eq_self.mpr
  intro y hy
  have hpw2 : (l.filter (fun y => locLt z y)).Pairwise
      fun a b => locLt a b = true := List.Pairwise.filter _ hpw
  rw [hfil] at hpw2
  exact (List.pairwise_cons.mp hpw2).1 y hy

theorem scanFrom_past_end (f : HeapFile) :
    ∀ (fuel : Nat) (z : Nat × Nat), ¬ z.1 < f.pages.length →
      f.scanFrom fuel z = [] := by
  intro fuel z hz
  cases fuel with
  | zero => rfl
  | succ fuel => rw [HeapFile.scanFrom, if_neg hz]

theorem scanFrom_eq_aux (f : HeapFile) :
    ∀ (fuel : Nat) (x : Nat × Nat), x ∈ f.liveLocs →
      (f.liveLocs.filter fun y => locLt x y).length < fuel →
      f.scanFrom fuel x = x :: f.liveLocs.filter fun y => locLt x y := by
  intro fuel
  induction fuel with
  | zero =>
    intro x _ hlen
    omega
  | succ fuel ih =>
    intro x hx hlen
    have hx1 : x.1 < f.pages.length := ((mem_locsFrom f 0 x).mp hx).2.1
    rw [HeapFile.scanFrom, if_pos hx1]
    congr 1
    have hnext := next_eq_filter f x hx1
    cases hfil : f.liveLocs.filter (fun y => locLt x y) with
    | nil =>
      rw [hfil] at hnext
      rw [hnext]
      exact scanFrom_past_end f fuel _ (by simp)
    | cons y rest =>
      rw [hfil] at hnext
      have hy : y ∈ f.liveLocs := by
        have : y ∈ f.liveLocs.filter (fun y => locLt x y) := by
          rw [hfil]
          exact List.mem_cons_self y rest
        exact List.mem_of_mem_filter this
      have htail := filter_tail_of_sorted f.liveLocs x y rest
        (liveLocs_pairwise f) hfil
      rw [hnext]
      simp only [Option.getD_some, List.head?_cons]
      rw [ih y hy (by rw [htail]; rw [hfil] at hlen; simp at hlen; omega), htail]

/-- C1: a full scan that starts at `begin()` and repeatedly calls `next()`
visits exactly the live locators of the file, each exactly once, in strictly
increasing (page, slot) lexicographic order; and `next` from the last live
locator yields exactly the sentinel `(pageCount, 0)`. -/
theorem claim_C1_scan_order (f : HeapFile) :
    f.scanFrom (f.liveLocs.length + 1) f.begin = f.liveLocs ∧
    f.liveLocs.Pairwise (fun a b => locLt a b = true) ∧
    (∀ it : Nat × Nat, it ∈ f.liveLocs ↔ (it.1 < f.getNumPages ∧
      (f.pages.getD it.1 (emptyPage f.td)).live.getD it.2 false = true)) ∧
    (∀ last, f.liveLocs.getLast? = some last → f.next last = f.endLoc) := by
  refine ⟨?_, liveLocs_pairwise f, ?_, ?_⟩
  · have hbeg : f.begin = f.liveLocs.head?.getD (f.pages.length, 0) := by
      rw [HeapFile.begin, findFrom_eq]
      rfl
    cases hll : f.liveLocs with
    | nil =>
      rw [hbeg, hll]
      exact scanFrom_past_end f _ _ (by simp)
    | cons x rest =>
      rw [hbeg, hll]
      simp only [List.head?_cons, Option.getD_some]
      have hx : x ∈ f.liveLocs := by
        rw [hll]
        exact List.mem_cons_self x rest
      have htail : f.liveLocs.filter (fun y => locLt x y) = rest := by
        have hpw := liveLocs_pairwise f
        rw [hll] at hpw ⊢
        rw [List.filter_cons_of_neg (by simp [locLt_irrefl])]
        apply List.filter_eq_self.mpr
        intro y hy
        exact (List.pairwise_cons.mp hpw).1 y hy
      have hscan := scanFrom_eq_aux f (f.liveLocs.length + 1) x hx
        (by rw [htail, hll]; simp only [List.length_cons]; omega)
      rw [htail] at hscan
      rw [hll] at hscan
      exact hscan
  · intro it
    rw [HeapFile.liveLocs, mem_locsFrom, mem_liveSlots]
    constructor
    · rintro ⟨-, h2, h3, h4⟩
      exact ⟨h2, h4⟩
    · rintro ⟨h1, h2⟩
      refine ⟨by omega, h1, ?_, h2⟩
      by_contra hge
      push_neg at hge
      rw [List.getD_eq_getElem?_getD, List.getElem?_eq_none (by omega)] at h2
      simp at h2
  · intro last hlast
    have hmem : last ∈ f.liveLocs := getLast?_mem _ last hlast
    have h1 : last.1 < f.pages.length := ((mem_locsFrom f 0 last).mp hmem).2.1
    rw [next_eq_filter f last h1, filter_after_getLast f last hlast]
    rfl

/-- C1 witness: on the concrete three-page file (live slots (0,0), (0,2),
(2,1)) the scan from `begin()` enumerates the live locators and `next` from
the last live locator (2,1) gives the sentinel. -/
theorem claim_C1_witness :
    fileW.scanFrom (fileW.liveLocs.length + 1) fileW.begin = fileW.liveLocs ∧
      fileW.next (2, 1) = fileW.endLoc :=
  ⟨(claim_C1_scan_order fileW).1,
    (claim_C1_scan_order fileW).2.2.2 (2, 1) (by decide)⟩

end Db
